import Mathlib

/-!
Shallow embedding of the static-map builder (Robin Hood hash-table builder,
histogram accumulator and serializer) together with proofs about the claims
of the specification.

Source files embedded here:
* staticmap-builder/src/lib.rs : `Entry`, `Builder` (`with_capacity`,
  `insert`, `build`, `hash`) and the `Display` instance for `Entry`.
* src/hist.rs : `Hist` (`new`, `insert`, `average`) and its `Display`
  instance (`report`).

Modelling conventions:
* `usize` values are natural numbers; where the source wraps
  (`wrapping_sub`, `as usize` on a `u64`), we reduce modulo `USIZE = 2 ^ 64`
  explicitly.
* The caller-supplied `BuildHasher` is modelled as a function `K → Nat`
  whose value is reduced mod `2 ^ 64` where the source converts the `u64`
  digest to `usize`.
* The unbounded `loop` of `Builder::insert` is modelled with explicit fuel:
  the function returns `none` when the fuel runs out, so non-termination of
  the source loop corresponds to returning `none` at every fuel value.
* Rust `f32` arithmetic appears only in `Hist::average`; the two integer
  sums are exact, so the average is modelled as the exact rational quotient.
-/

namespace StaticMap

/-- Modulus of `usize` arithmetic on the 64-bit targets the crate is built
for. -/
def USIZE : Nat := 2 ^ 64

/-- `usize::wrapping_sub` on values already reduced mod `2 ^ 64`. -/
def wrappingSub (a b : Nat) : Nat := (a + USIZE - b % USIZE) % USIZE

/-- `Entry<K>` from staticmap-builder/src/lib.rs: a key plus an opaque
string payload. -/
structure Entry (K : Type) where
  key : K
  value : String
deriving DecidableEq, Repr

/-- Rust `Entry::<K>::default()`: default key and empty string. -/
instance (K : Type) [Inhabited K] : Inhabited (Entry K) := ⟨⟨default, ""⟩⟩

/-- `Builder<K, S>` from staticmap-builder/src/lib.rs.  The `BuildHasher`
field is modelled as the digest function it induces on keys. -/
structure Builder (K : Type) where
  hashes : List Nat
  entries : List (Entry K)
  hasher : K → Nat

/-- `MIN_TABLE_SIZE` from staticmap-builder/src/lib.rs. -/
def MIN_TABLE_SIZE : Nat := 32

/-- Fuel-driven helper computing `usize::next_power_of_two`: the smallest
power of two that is `≥ n` (and `1` for `n = 0`), obtained by doubling the
accumulator `p` until it reaches `n`. -/
def npotAux (n : Nat) : Nat → Nat → Nat
  | p, 0 => p
  | p, fuel + 1 => if n ≤ p then p else npotAux n (2 * p) fuel

/-- `usize::next_power_of_two` (Rust standard library): smallest power of
two greater than or equal to the argument, with `0` mapped to `1`. -/
def nextPowerOfTwo (n : Nat) : Nat := npotAux n 1 n

/-- Capacity computed by `Builder::with_capacity`:
`cmp::max((size * 10/9).next_power_of_two(), MIN_TABLE_SIZE)`.
Rust `size * 10/9` is the floor division `(size * 10) / 9`. -/
def tableCapacity (size : Nat) : Nat :=
  max (nextPowerOfTwo (size * 10 / 9)) MIN_TABLE_SIZE

/-- `Builder::with_capacity`: a table of `tableCapacity size` slots, all
hashes zero (the empty sentinel) and all entries default. -/
def Builder.withCapacity (K : Type) [Inhabited K] (size : Nat)
    (hasher : K → Nat) : Builder K :=
  { hashes := List.replicate (tableCapacity size) 0
    entries := List.replicate (tableCapacity size) default
    hasher := hasher }

/-- `Builder::hash`: run the hasher, convert the `u64` digest to `usize`,
and remap a digest of `0` to `1` so `0` stays reserved as the empty
sentinel. -/
def hashOf {K : Type} (hasher : K → Nat) (key : K) : Nat :=
  if hasher key % USIZE = 0 then 1 else hasher key % USIZE

/-- Method form of `hashOf`, matching `Builder::hash(&self, key)`. -/
def Builder.hash {K : Type} (b : Builder K) (key : K) : Nat :=
  hashOf b.hasher key

/-- Probing loop of `Builder::insert`, with explicit fuel for the source's
unbounded `loop`.  State: current table (`H`, `E`), traveling candidate
(`hash`, `entry`), probe position `pos` and accumulated distance `dist`.
Returns `none` when the fuel is exhausted before an empty slot is found. -/
def insertLoop {K : Type} [Inhabited K] (mask : Nat) :
    Nat → List Nat → List (Entry K) → Nat → Entry K → Nat → Nat →
    Option (Nat × List Nat × List (Entry K))
  | 0, _, _, _, _, _, _ => none
  | fuel + 1, H, E, hash, entry, pos, dist =>
    if H.getD pos 0 = 0 then
      some (dist, H.set pos hash, E.set pos entry)
    else
      if wrappingSub pos (H.getD pos 0) &&& mask < dist then
        insertLoop mask fuel (H.set pos hash) (E.set pos entry)
          (H.getD pos 0) (E.getD pos default)
          ((pos + 1) &&& mask) ((wrappingSub pos (H.getD pos 0) &&& mask) + 1)
      else
        insertLoop mask fuel H E hash entry ((pos + 1) &&& mask) (dist + 1)

/-- `Builder::insert(key, value)`: Robin Hood insertion.  Returns the final
`dist` of the probing loop together with the updated builder, or `none`
when the loop does not terminate within `fuel` iterations. -/
def Builder.insert {K : Type} [Inhabited K] (b : Builder K) (key : K)
    (value : String) (fuel : Nat) : Option (Nat × Builder K) :=
  match insertLoop (b.entries.length - 1) fuel b.hashes b.entries
      (b.hash key) ⟨key, value⟩ (b.hash key &&& (b.entries.length - 1)) 0 with
  | none => none
  | some (d, H, E) => some (d, { b with hashes := H, entries := E })

/-- Driver loop: insert a list of pairs one at a time (the caller-side
loop the specification describes), collecting the returned distances. -/
def Builder.insertAll {K : Type} [Inhabited K] (b : Builder K) :
    List (K × String) → Nat → Option (List Nat × Builder K)
  | [], _ => some ([], b)
  | q :: rest, fuel =>
    match b.insert q.1 q.2 fuel with
    | none => none
    | some (d, b') =>
      match b'.insertAll rest fuel with
      | none => none
      | some (ds, b'') => some (d :: ds, b'')

/-! ### Generic arithmetic and list helper lemmas -/

lemma and_mask_eq_mod (k x : Nat) : x &&& (2 ^ k - 1) = x % 2 ^ k :=
  Nat.and_pow_two_sub_one_eq_mod x k

lemma and_mask_lt (k x : Nat) : x &&& (2 ^ k - 1) < 2 ^ k := by
  rw [and_mask_eq_mod]
  exact Nat.mod_lt _ (Nat.two_pow_pos k)

lemma and_mask_le {x m : Nat} : x &&& m ≤ m := Nat.and_le_right

lemma natCast_modEq_of_lt {n a b : Nat} (ha : a < n) (hb : b < n)
    (h : (a : Int) ≡ (b : Int) [ZMOD (n : Int)]) : a = b := by
  have h1 : (a : Int) % n = (b : Int) % n := h
  rw [Int.emod_eq_of_lt (by positivity) (by exact_mod_cast ha),
      Int.emod_eq_of_lt (by positivity) (by exact_mod_cast hb)] at h1
  exact_mod_cast h1

lemma wrappingSub_and_mask_modEq (k p h : Nat) (hdvd : (2 ^ k : Nat) ∣ USIZE) :
    ((wrappingSub p h &&& (2 ^ k - 1) : Nat) : Int)
      ≡ (p : Int) - (h : Int) [ZMOD ((2 ^ k : Nat) : Int)] := by
  have hdvd' : ((2 ^ k : Nat) : Int) ∣ ((USIZE : Nat) : Int) :=
    Int.natCast_dvd_natCast.mpr hdvd
  have hUpos : 0 < USIZE := by norm_num [USIZE]
  have hle : h % USIZE ≤ p + USIZE := le_trans (le_of_lt (Nat.mod_lt _ hUpos)) (by omega)
  rw [and_mask_eq_mod]
  have hcast : (((p + USIZE - h % USIZE) % USIZE % 2 ^ k : Nat) : Int)
      = ((p : Int) + (USIZE : Nat) - ((h : Int) % (USIZE : Nat))) % ((USIZE : Nat) : Int)
          % ((2 ^ k : Nat) : Int) := by
    push_cast [Nat.cast_sub hle]
    ring_nf
  show (((p + USIZE - h % USIZE) % USIZE % 2 ^ k : Nat) : Int) ≡ _ [ZMOD _]
  rw [hcast]
  have step1 : ((p : Int) + (USIZE : Nat) - ((h : Int) % (USIZE : Nat)))
      % ((USIZE : Nat) : Int) % ((2 ^ k : Nat) : Int)
      = ((p : Int) + (USIZE : Nat) - ((h : Int) % (USIZE : Nat))) % ((2 ^ k : Nat) : Int) :=
    Int.emod_emod_of_dvd _ hdvd'
  rw [step1]
  have e1 : ((p : Int) + (USIZE : Nat) - ((h : Int) % (USIZE : Nat)))
      ≡ (p : Int) + 0 - (h : Int) [ZMOD ((2 ^ k : Nat) : Int)] := by
    refine Int.ModEq.sub (Int.ModEq.add Int.ModEq.rfl ?_) ?_
    · exact Int.modEq_zero_iff_dvd.mpr hdvd'
    · exact Int.emod_emod_of_dvd _ hdvd'
  have e2 : (((p : Int) + (USIZE : Nat) - ((h : Int) % (USIZE : Nat)))
        % ((2 ^ k : Nat) : Int))
      ≡ ((p : Int) + (USIZE : Nat) - ((h : Int) % (USIZE : Nat)))
        [ZMOD ((2 ^ k : Nat) : Int)] :=
    Int.emod_emod_of_dvd _ dvd_rfl
  have e3 := e2.trans e1
  simpa using e3

lemma wrappingSub_and_mask_of_mod_zero (k p h : Nat) (hdvd : (2 ^ k : Nat) ∣ USIZE)
    (hh : h % 2 ^ k = 0) (hp : p < 2 ^ k) :
    wrappingSub p h &&& (2 ^ k - 1) = p := by
  refine natCast_modEq_of_lt (and_mask_lt k _) hp ?_
  have h1 := wrappingSub_and_mask_modEq k p h hdvd
  have h2 : (h : Int) ≡ 0 [ZMOD ((2 ^ k : Nat) : Int)] := by
    rw [Int.modEq_zero_iff_dvd]
    exact_mod_cast Nat.dvd_of_mod_eq_zero hh
  calc ((wrappingSub p h &&& (2 ^ k - 1) : Nat) : Int)
      ≡ (p : Int) - (h : Int) [ZMOD _] := h1
    _ ≡ (p : Int) - 0 [ZMOD _] := Int.ModEq.sub Int.ModEq.rfl h2
    _ = (p : Int) := by ring

lemma getD_set_self {α : Type _} (l : List α) (i : Nat) (a d : α) (h : i < l.length) :
    (l.set i a).getD i d = a := by
  have h' : i < (l.set i a).length := by simpa using h
  rw [List.getD_eq_getElem _ _ h', List.getElem_set_self]

lemma getD_set_ne {α : Type _} (l : List α) (i j : Nat) (a d : α) (h : i ≠ j) :
    (l.set i a).getD j d = l.getD j d := by
  by_cases hj : j < l.length
  · have hj' : j < (l.set i a).length := by simpa using hj
    rw [List.getD_eq_getElem _ _ hj', List.getD_eq_getElem _ _ hj, List.getElem_set_ne h]
  · rw [List.getD_eq_default _ _ (show (l.set i a).length ≤ j by rw [List.length_set]; omega),
        List.getD_eq_default _ _ (by omega)]

lemma getD_replicate {α : Type _} (n i : Nat) (a d : α) (h : i < n) :
    (List.replicate n a).getD i d = a := by
  have h' : i < (List.replicate n a).length := by simpa using h
  rw [List.getD_eq_getElem _ _ h', List.getElem_replicate]

lemma zip_set {α β : Type _} (l1 : List α) (l2 : List β) (i : Nat) (a : α) (b : β) :
    (l1.set i a).zip (l2.set i b) = (l1.zip l2).set i (a, b) := by
  induction l1 generalizing l2 i with
  | nil => simp
  | cons x t ih =>
    cases l2 with
    | nil => simp
    | cons y s =>
      cases i with
      | zero => rfl
      | succ n => exact congrArg (List.cons (x, y)) (ih s n)

lemma perm_set_cons_eraseIdx {α : Type _} (l : List α) (i : Nat) (a : α)
    (h : i < l.length) : (l.set i a).Perm (a :: l.eraseIdx i) := by
  induction l generalizing i with
  | nil => simp at h
  | cons x t ih =>
    cases i with
    | zero => simp [List.set, List.eraseIdx]
    | succ n =>
      have hn : n < t.length := by simpa using h
      show (x :: t.set n a).Perm (a :: ((x :: t).eraseIdx (n + 1)))
      rw [List.eraseIdx_cons_succ]
      exact List.Perm.trans ((ih n hn).cons x) (List.Perm.swap a x _)

lemma perm_cons_eraseIdx {α : Type _} (l : List α) (i : Nat) (d : α)
    (h : i < l.length) : l.Perm (l.getD i d :: l.eraseIdx i) := by
  induction l generalizing i with
  | nil => simp at h
  | cons x t ih =>
    cases i with
    | zero => simp [List.eraseIdx]
    | succ n =>
      have hn : n < t.length := by simpa using h
      show (x :: t).Perm ((x :: t).getD (n + 1) d :: ((x :: t).eraseIdx (n + 1)))
      rw [List.eraseIdx_cons_succ, List.getD_cons_succ]
      exact List.Perm.trans ((ih n hn).cons x) (List.Perm.swap _ x _)

lemma zip_getD {α β : Type _} (l1 : List α) (l2 : List β) (i : Nat) (d1 : α) (d2 : β)
    (h1 : i < l1.length) (h2 : i < l2.length) :
    (l1.zip l2).getD i (d1, d2) = (l1.getD i d1, l2.getD i d2) := by
  have hz : i < (l1.zip l2).length := by rw [List.length_zip]; omega
  rw [List.getD_eq_getElem _ _ hz, List.getD_eq_getElem _ _ h1,
      List.getD_eq_getElem _ _ h2, List.getElem_zip]

/-- Occupancy test used by the table invariants: a slot is occupied exactly
when its stored hash differs from the empty sentinel `0`. -/
def occPred {K : Type} : Nat × Entry K → Bool := fun q => q.1 != 0

/-- The multiset of (stored hash, entry) pairs in the occupied slots of
the table. -/
def occ {K : Type} (H : List Nat) (E : List (Entry K)) : Multiset (Nat × Entry K) :=
  ((H.zip E).filter occPred : List (Nat × Entry K))

lemma occ_of_empty_slot {K : Type} [Inhabited K] (H : List Nat) (E : List (Entry K))
    (i : Nat) (hH : i < H.length) (hE : i < E.length) (hz : H.getD i 0 = 0) :
    occ H E = (((H.zip E).eraseIdx i).filter occPred : List (Nat × Entry K)) := by
  have hiz : i < (H.zip E).length := by rw [List.length_zip]; omega
  have hperm := (perm_cons_eraseIdx (H.zip E) i (0, (default : Entry K)) hiz).filter occPred
  rw [zip_getD _ _ _ _ _ hH hE, hz] at hperm
  have hhead : occPred ((0 : Nat), (E.getD i default)) = false := by
    simp [occPred]
  have hneg : ¬ occPred ((0 : Nat), (E.getD i default)) = true := by
    rw [hhead]; exact Bool.false_ne_true
  rw [List.filter_cons_of_neg hneg] at hperm
  simpa [occ, Multiset.coe_eq_coe] using hperm

lemma occ_of_occupied_slot {K : Type} [Inhabited K] (H : List Nat) (E : List (Entry K))
    (i : Nat) (hH : i < H.length) (hE : i < E.length) (hz : H.getD i 0 ≠ 0) :
    occ H E = (H.getD i 0, E.getD i default) ::ₘ
      (((H.zip E).eraseIdx i).filter occPred : List (Nat × Entry K)) := by
  have hiz : i < (H.zip E).length := by rw [List.length_zip]; omega
  have hperm := (perm_cons_eraseIdx (H.zip E) i (0, (default : Entry K)) hiz).filter occPred
  rw [zip_getD _ _ _ _ _ hH hE] at hperm
  have hhead : occPred ((H.getD i 0), (E.getD i default)) = true := by
    show (H.getD i 0 != 0) = true
    exact bne_iff_ne.mpr hz
  rw [List.filter_cons_of_pos hhead] at hperm
  simp only [occ]
  rw [Multiset.cons_coe]
  exact Multiset.coe_eq_coe.mpr hperm

lemma occ_set {K : Type} [Inhabited K] (H : List Nat) (E : List (Entry K))
    (i : Nat) (h : Nat) (e : Entry K) (hH : i < H.length) (hE : i < E.length)
    (hne : h ≠ 0) :
    occ (H.set i h) (E.set i e) = (h, e) ::ₘ
      (((H.zip E).eraseIdx i).filter occPred : List (Nat × Entry K)) := by
  have hiz : i < (H.zip E).length := by rw [List.length_zip]; omega
  have hperm := (perm_set_cons_eraseIdx (H.zip E) i (h, e) hiz).filter occPred
  have hhead : occPred (h, e) = true := by
    show (h != 0) = true
    exact bne_iff_ne.mpr hne
  rw [List.filter_cons_of_pos hhead] at hperm
  simp only [occ, zip_set]
  rw [Multiset.cons_coe]
  exact Multiset.coe_eq_coe.mpr hperm

lemma cons_add_singleton_comm {α : Type _} (x y : α) (s : Multiset α) :
    (x ::ₘ s) + {y} = (y ::ₘ s) + {x} := by
  have h1 : (x ::ₘ s) + {y} = y ::ₘ x ::ₘ s := by
    rw [add_comm, Multiset.singleton_add]
  have h2 : (y ::ₘ s) + {x} = x ::ₘ y ::ₘ s := by
    rw [add_comm, Multiset.singleton_add]
  rw [h1, h2, Multiset.cons_swap]

/-! ### Invariants of the probing loop -/

lemma insertLoop_lengths {K : Type} [Inhabited K] (mask : Nat) :
    ∀ (fuel : Nat) (H : List Nat) (E : List (Entry K)) (hash : Nat) (entry : Entry K)
      (pos dist d : Nat) (H' : List Nat) (E' : List (Entry K)),
      insertLoop mask fuel H E hash entry pos dist = some (d, H', E') →
      H'.length = H.length ∧ E'.length = E.length := by
  intro fuel
  induction fuel with
  | zero =>
    intro H E hash entry pos dist d H' E' hsome
    simp [insertLoop] at hsome
  | succ fuel ih =>
    intro H E hash entry pos dist d H' E' hsome
    rw [insertLoop] at hsome
    by_cases hc : H.getD pos 0 = 0
    · rw [if_pos hc] at hsome
      obtain ⟨h1, h2, h3⟩ : dist = d ∧ H.set pos hash = H' ∧ E.set pos entry = E' := by
        simpa using hsome
      subst h2; subst h3
      simp
    · rw [if_neg hc] at hsome
      by_cases hs : wrappingSub pos (H.getD pos 0) &&& mask < dist
      · rw [if_pos hs] at hsome
        have h := ih _ _ _ _ _ _ _ _ _ hsome
        simpa using h
      · rw [if_neg hs] at hsome
        exact ih _ _ _ _ _ _ _ _ _ hsome

lemma insertLoop_occ {K : Type} [Inhabited K] (mask : Nat) :
    ∀ (fuel : Nat) (H : List Nat) (E : List (Entry K)) (hash : Nat) (entry : Entry K)
      (pos dist d : Nat) (H' : List Nat) (E' : List (Entry K)),
      insertLoop mask fuel H E hash entry pos dist = some (d, H', E') →
      H.length = mask + 1 → E.length = mask + 1 → pos ≤ mask → hash ≠ 0 →
      occ H' E' = occ H E + {(hash, entry)} := by
  intro fuel
  induction fuel with
  | zero =>
    intro H E hash entry pos dist d H' E' hsome _ _ _ _
    simp [insertLoop] at hsome
  | succ fuel ih =>
    intro H E hash entry pos dist d H' E' hsome hH hE hpos hhash
    rw [insertLoop] at hsome
    have hposH : pos < H.length := by omega
    have hposE : pos < E.length := by omega
    by_cases hc : H.getD pos 0 = 0
    · rw [if_pos hc] at hsome
      obtain ⟨h1, h2, h3⟩ : dist = d ∧ H.set pos hash = H' ∧ E.set pos entry = E' := by
        simpa using hsome
      subst h2; subst h3
      rw [occ_set H E pos hash entry hposH hposE hhash,
          occ_of_empty_slot H E pos hposH hposE hc, add_comm, Multiset.singleton_add]
    · rw [if_neg hc] at hsome
      by_cases hs : wrappingSub pos (H.getD pos 0) &&& mask < dist
      · rw [if_pos hs] at hsome
        have hrec := ih (H.set pos hash) (E.set pos entry) (H.getD pos 0)
          (E.getD pos default) ((pos + 1) &&& mask)
          ((wrappingSub pos (H.getD pos 0) &&& mask) + 1) d H' E' hsome
          (by simpa using hH) (by simpa using hE) and_mask_le hc
        rw [occ_set H E pos hash entry hposH hposE hhash] at hrec
        rw [hrec, occ_of_occupied_slot H E pos hposH hposE hc]
        exact cons_add_singleton_comm _ _ _
      · rw [if_neg hs] at hsome
        exact ih H E hash entry ((pos + 1) &&& mask) (dist + 1) d H' E' hsome
          hH hE and_mask_le hhash

lemma insertLoop_occupied_mono {K : Type} [Inhabited K] (mask : Nat) :
    ∀ (fuel : Nat) (H : List Nat) (E : List (Entry K)) (hash : Nat) (entry : Entry K)
      (pos dist d : Nat) (H' : List Nat) (E' : List (Entry K)),
      insertLoop mask fuel H E hash entry pos dist = some (d, H', E') →
      H.length = mask + 1 → pos ≤ mask → hash ≠ 0 →
      ∀ i, H.getD i 0 ≠ 0 → H'.getD i 0 ≠ 0 := by
  intro fuel
  induction fuel with
  | zero =>
    intro H E hash entry pos dist d H' E' hsome _ _ _
    simp [insertLoop] at hsome
  | succ fuel ih =>
    intro H E hash entry pos dist d H' E' hsome hH hpos hhash i hi
    rw [insertLoop] at hsome
    have hposH : pos < H.length := by omega
    by_cases hc : H.getD pos 0 = 0
    · rw [if_pos hc] at hsome
      obtain ⟨h1, h2, h3⟩ : dist = d ∧ H.set pos hash = H' ∧ E.set pos entry = E' := by
        simpa using hsome
      subst h2
      by_cases hip : pos = i
      · subst hip; rw [getD_set_self _ _ _ _ hposH]; exact hhash
      · rw [getD_set_ne _ _ _ _ _ hip]; exact hi
    · rw [if_neg hc] at hsome
      by_cases hs : wrappingSub pos (H.getD pos 0) &&& mask < dist
      · rw [if_pos hs] at hsome
        refine ih (H.set pos hash) (E.set pos entry) (H.getD pos 0)
          (E.getD pos default) ((pos + 1) &&& mask)
          ((wrappingSub pos (H.getD pos 0) &&& mask) + 1) d H' E' hsome
          (by simpa using hH) and_mask_le hc i ?_
        by_cases hip : pos = i
        · subst hip; rw [getD_set_self _ _ _ _ hposH]; exact hhash
        · rw [getD_set_ne _ _ _ _ _ hip]; exact hi
      · rw [if_neg hs] at hsome
        exact ih H E hash entry ((pos + 1) &&& mask) (dist + 1) d H' E' hsome
          hH and_mask_le hhash i hi

lemma insertLoop_good {K : Type} [Inhabited K] (mask : Nat) (P : Nat → Entry K → Prop) :
    ∀ (fuel : Nat) (H : List Nat) (E : List (Entry K)) (hash : Nat) (entry : Entry K)
      (pos dist d : Nat) (H' : List Nat) (E' : List (Entry K)),
      insertLoop mask fuel H E hash entry pos dist = some (d, H', E') →
      H.length = mask + 1 → E.length = mask + 1 → pos ≤ mask →
      P hash entry →
      (∀ i, i < mask + 1 → H.getD i 0 ≠ 0 → P (H.getD i 0) (E.getD i default)) →
      ∀ i, i < mask + 1 → H'.getD i 0 ≠ 0 → P (H'.getD i 0) (E'.getD i default) := by
  intro fuel
  induction fuel with
  | zero =>
    intro H E hash entry pos dist d H' E' hsome _ _ _ _ _
    simp [insertLoop] at hsome
  | succ fuel ih =>
    intro H E hash entry pos dist d H' E' hsome hH hE hpos hP hgood
    rw [insertLoop] at hsome
    have hposH : pos < H.length := by omega
    have hposE : pos < E.length := by omega
    by_cases hc : H.getD pos 0 = 0
    · rw [if_pos hc] at hsome
      obtain ⟨h1, h2, h3⟩ : dist = d ∧ H.set pos hash = H' ∧ E.set pos entry = E' := by
        simpa using hsome
      subst h2; subst h3
      intro i hilt hocc
      by_cases hip : pos = i
      · subst hip
        rw [getD_set_self _ _ _ _ hposH, getD_set_self _ _ _ _ hposE]
        exact hP
      · rw [getD_set_ne _ _ _ _ _ hip] at hocc ⊢
        rw [getD_set_ne _ _ _ _ _ hip]
        exact hgood i hilt hocc
    · rw [if_neg hc] at hsome
      by_cases hs : wrappingSub pos (H.getD pos 0) &&& mask < dist
      · rw [if_pos hs] at hsome
        refine ih (H.set pos hash) (E.set pos entry) (H.getD pos 0)
          (E.getD pos default) ((pos + 1) &&& mask)
          ((wrappingSub pos (H.getD pos 0) &&& mask) + 1) d H' E' hsome
          (by simpa using hH) (by simpa using hE) and_mask_le
          (hgood pos (by omega) hc) ?_
        intro i hilt hocc
        by_cases hip : pos = i
        · subst hip
          rw [getD_set_self _ _ _ _ hposH, getD_set_self _ _ _ _ hposE]
          exact hP
        · rw [getD_set_ne _ _ _ _ _ hip] at hocc ⊢
          rw [getD_set_ne _ _ _ _ _ hip]
          exact hgood i hilt hocc
      · rw [if_neg hs] at hsome
        exact ih H E hash entry ((pos + 1) &&& mask) (dist + 1) d H' E' hsome
          hH hE and_mask_le hP hgood

lemma insertLoop_zero_default {K : Type} [Inhabited K] (mask : Nat) :
    ∀ (fuel : Nat) (H : List Nat) (E : List (Entry K)) (hash : Nat) (entry : Entry K)
      (pos dist d : Nat) (H' : List Nat) (E' : List (Entry K)),
      insertLoop mask fuel H E hash entry pos dist = some (d, H', E') →
      H.length = mask + 1 → E.length = mask + 1 → pos ≤ mask → hash ≠ 0 →
      (∀ i, i < mask + 1 → H.getD i 0 = 0 → E.getD i default = default) →
      ∀ i, i < mask + 1 → H'.getD i 0 = 0 → E'.getD i default = default := by
  intro fuel
  induction fuel with
  | zero =>
    intro H E hash entry pos dist d H' E' hsome _ _ _ _ _
    simp [insertLoop] at hsome
  | succ fuel ih =>
    intro H E hash entry pos dist d H' E' hsome hH hE hpos hhash hzero
    rw [insertLoop] at hsome
    have hposH : pos < H.length := by omega
    have hposE : pos < E.length := by omega
    by_cases hc : H.getD pos 0 = 0
    · rw [if_pos hc] at hsome
      obtain ⟨h1, h2, h3⟩ : dist = d ∧ H.set pos hash = H' ∧ E.set pos entry = E' := by
        simpa using hsome
      subst h2; subst h3
      intro i hilt hz
      by_cases hip : pos = i
      · subst hip
        rw [getD_set_self _ _ _ _ hposH] at hz
        exact absurd hz hhash
      · rw [getD_set_ne _ _ _ _ _ hip] at hz
        rw [getD_set_ne _ _ _ _ _ hip]
        exact hzero i hilt hz
    · rw [if_neg hc] at hsome
      by_cases hs : wrappingSub pos (H.getD pos 0) &&& mask < dist
      · rw [if_pos hs] at hsome
        refine ih (H.set pos hash) (E.set pos entry) (H.getD pos 0)
          (E.getD pos default) ((pos + 1) &&& mask)
          ((wrappingSub pos (H.getD pos 0) &&& mask) + 1) d H' E' hsome
          (by simpa using hH) (by simpa using hE) and_mask_le hc ?_
        intro i hilt hz
        by_cases hip : pos = i
        · subst hip
          rw [getD_set_self _ _ _ _ hposH] at hz
          exact absurd hz hhash
        · rw [getD_set_ne _ _ _ _ _ hip] at hz
          rw [getD_set_ne _ _ _ _ _ hip]
          exact hzero i hilt hz
      · rw [if_neg hs] at hsome
        exact ih H E hash entry ((pos + 1) &&& mask) (dist + 1) d H' E' hsome
          hH hE and_mask_le hhash hzero

lemma insertLoop_progress {K : Type} [Inhabited K] (k : Nat) :
    ∀ (j fuel : Nat) (H : List Nat) (E : List (Entry K)) (hash : Nat) (entry : Entry K)
      (pos dist : Nat),
      H.length = 2 ^ k → E.length = 2 ^ k → pos < 2 ^ k → hash ≠ 0 →
      H.getD ((pos + j) % 2 ^ k) 0 = 0 →
      j < fuel →
      ∃ r, insertLoop (2 ^ k - 1) fuel H E hash entry pos dist = some r ∧
        r.1 ≤ dist + j := by
  have hcap : 0 < 2 ^ k := Nat.two_pow_pos k
  intro j
  induction j with
  | zero =>
    intro fuel H E hash entry pos dist hH hE hpos hhash hempty hfuel
    obtain ⟨f, rfl⟩ : ∃ f, fuel = f + 1 := ⟨fuel - 1, by omega⟩
    rw [Nat.add_zero, Nat.mod_eq_of_lt hpos] at hempty
    refine ⟨(dist, H.set pos hash, E.set pos entry), ?_, by omega⟩
    rw [insertLoop, if_pos hempty]
  | succ j ih =>
    intro fuel H E hash entry pos dist hH hE hpos hhash hempty hfuel
    obtain ⟨f, rfl⟩ : ∃ f, fuel = f + 1 := ⟨fuel - 1, by omega⟩
    by_cases hc : H.getD pos 0 = 0
    · refine ⟨(dist, H.set pos hash, E.set pos entry), ?_, by omega⟩
      rw [insertLoop, if_pos hc]
    · have hne : (pos + (j + 1)) % 2 ^ k ≠ pos := fun he => hc (he ▸ hempty)
      have hposH : pos < H.length := by omega
      have hmask1 : (2 ^ k - 1) + 1 = 2 ^ k := by omega
      have hpos' : (pos + 1) &&& (2 ^ k - 1) = (pos + 1) % 2 ^ k :=
        and_mask_eq_mod k (pos + 1)
      have hpos'lt : (pos + 1) % 2 ^ k < 2 ^ k := Nat.mod_lt _ hcap
      have hmod : ((pos + 1) % 2 ^ k + j) % 2 ^ k = (pos + (j + 1)) % 2 ^ k := by
        have hm : ((pos + 1) % 2 ^ k + j) % 2 ^ k = ((pos + 1) + j) % 2 ^ k :=
          (Nat.mod_modEq (pos + 1) (2 ^ k)).add_right j
        rw [hm]
        congr 1
        omega
      by_cases hs : wrappingSub pos (H.getD pos 0) &&& (2 ^ k - 1) < dist
      · have hempty2 : (H.set pos hash).getD (((pos + 1) % 2 ^ k + j) % 2 ^ k) 0 = 0 := by
          rw [hmod, getD_set_ne _ _ _ _ _ (fun he => hne he.symm)]
          exact hempty
        obtain ⟨r, hr, hb⟩ := ih f (H.set pos hash) (E.set pos entry) (H.getD pos 0)
          (E.getD pos default) ((pos + 1) % 2 ^ k)
          ((wrappingSub pos (H.getD pos 0) &&& (2 ^ k - 1)) + 1)
          (by simpa using hH) (by simpa using hE) hpos'lt hc hempty2 (by omega)
        refine ⟨r, ?_, by omega⟩
        rw [insertLoop, if_neg hc, if_pos hs, hpos']
        exact hr
      · have hempty2 : H.getD (((pos + 1) % 2 ^ k + j) % 2 ^ k) 0 = 0 := by
          rw [hmod]; exact hempty
        obtain ⟨r, hr, hb⟩ := ih f H E hash entry ((pos + 1) % 2 ^ k) (dist + 1)
          hH hE hpos'lt hhash hempty2 (by omega)
        refine ⟨r, ?_, by omega⟩
        rw [insertLoop, if_neg hc, if_neg hs, hpos']
        exact hr

lemma insertLoop_none_of_full {K : Type} [Inhabited K] (mask : Nat) :
    ∀ (fuel : Nat) (H : List Nat) (E : List (Entry K)) (hash : Nat) (entry : Entry K)
      (pos dist : Nat),
      H.length = mask + 1 → pos ≤ mask → hash ≠ 0 →
      (∀ i, i < mask + 1 → H.getD i 0 ≠ 0) →
      insertLoop mask fuel H E hash entry pos dist = none := by
  intro fuel
  induction fuel with
  | zero =>
    intro H E hash entry pos dist _ _ _ _
    rw [insertLoop]
  | succ fuel ih =>
    intro H E hash entry pos dist hH hpos hhash hfull
    have hc : H.getD pos 0 ≠ 0 := hfull pos (by omega)
    have hposH : pos < H.length := by omega
    rw [insertLoop, if_neg hc]
    by_cases hs : wrappingSub pos (H.getD pos 0) &&& mask < dist
    · rw [if_pos hs]
      refine ih (H.set pos hash) (E.set pos entry) (H.getD pos 0)
        (E.getD pos default) ((pos + 1) &&& mask) _ (by simpa using hH)
        and_mask_le hc ?_
      intro i hilt
      by_cases hip : pos = i
      · subst hip; rw [getD_set_self _ _ _ _ hposH]; exact hhash
      · rw [getD_set_ne _ _ _ _ _ hip]; exact hfull i hilt
    · rw [if_neg hs]
      exact ih H E hash entry ((pos + 1) &&& mask) (dist + 1) hH and_mask_le hhash hfull

lemma insertLoop_settles {K : Type} [Inhabited K] (k : Nat)
    (hdvd : (2 ^ k : Nat) ∣ USIZE) :
    ∀ (fuel : Nat) (H : List Nat) (E : List (Entry K)) (hash : Nat) (entry : Entry K)
      (pos dist d : Nat) (H' : List Nat) (E' : List (Entry K)),
      insertLoop (2 ^ k - 1) fuel H E hash entry pos dist = some (d, H', E') →
      H.length = 2 ^ k → pos < 2 ^ k → hash ≠ 0 →
      ((dist : Int) ≡ (pos : Int) - (hash : Int) [ZMOD ((2 ^ k : Nat) : Int)]) →
      ∃ p, p < 2 ^ k ∧ H.getD p 0 = 0 ∧ H'.getD p 0 ≠ 0 ∧
        ((d : Int) ≡ (p : Int) - ((H'.getD p 0 : Nat) : Int) [ZMOD ((2 ^ k : Nat) : Int)]) := by
  have hcap : 0 < 2 ^ k := Nat.two_pow_pos k
  intro fuel
  induction fuel with
  | zero =>
    intro H E hash entry pos dist d H' E' hsome _ _ _ _
    simp [insertLoop] at hsome
  | succ fuel ih =>
    intro H E hash entry pos dist d H' E' hsome hH hpos hhash hdist
    rw [insertLoop] at hsome
    have hposH : pos < H.length := by omega
    by_cases hc : H.getD pos 0 = 0
    · rw [if_pos hc] at hsome
      obtain ⟨h1, h2, h3⟩ : dist = d ∧ H.set pos hash = H' ∧ E.set pos entry = E' := by
        simpa using hsome
      subst h1; subst h2
      refine ⟨pos, hpos, hc, ?_, ?_⟩
      · rw [getD_set_self _ _ _ _ hposH]; exact hhash
      · rw [getD_set_self _ _ _ _ hposH]; exact hdist
    · rw [if_neg hc] at hsome
      have hpos'lt : (pos + 1) &&& (2 ^ k - 1) < 2 ^ k := and_mask_lt k (pos + 1)
      have hpos'cong : (((pos + 1) &&& (2 ^ k - 1) : Nat) : Int)
          ≡ ((pos : Int) + 1) [ZMOD ((2 ^ k : Nat) : Int)] := by
        rw [and_mask_eq_mod]
        have h1 : (((pos + 1) % 2 ^ k : Nat) : Int)
            = ((pos + 1 : Nat) : Int) % ((2 ^ k : Nat) : Int) := by push_cast; ring_nf
        rw [h1]
        have h2 := Int.emod_emod_of_dvd (((pos + 1 : Nat) : Int)) (dvd_refl ((2 ^ k : Nat) : Int))
        calc ((pos + 1 : Nat) : Int) % ((2 ^ k : Nat) : Int)
            ≡ ((pos + 1 : Nat) : Int) [ZMOD ((2 ^ k : Nat) : Int)] := h2
          _ = (pos : Int) + 1 := by push_cast; ring
      by_cases hs : wrappingSub pos (H.getD pos 0) &&& (2 ^ k - 1) < dist
      · rw [if_pos hs] at hsome
        have hdist2 : (((wrappingSub pos (H.getD pos 0) &&& (2 ^ k - 1)) + 1 : Nat) : Int)
            ≡ ((((pos + 1) &&& (2 ^ k - 1) : Nat)) : Int) - ((H.getD pos 0 : Nat) : Int)
              [ZMOD ((2 ^ k : Nat) : Int)] := by
          have hw := wrappingSub_and_mask_modEq k pos (H.getD pos 0) hdvd
          have h1 : (((wrappingSub pos (H.getD pos 0) &&& (2 ^ k - 1)) + 1 : Nat) : Int)
              ≡ ((pos : Int) - ((H.getD pos 0 : Nat) : Int)) + 1
                [ZMOD ((2 ^ k : Nat) : Int)] := by
            push_cast
            push_cast at hw
            exact hw.add_right 1
          have h2 := hpos'cong.sub_right ((H.getD pos 0 : Nat) : Int)
          have h3 : ((pos : Int) - ((H.getD pos 0 : Nat) : Int)) + 1
              = ((pos : Int) + 1) - ((H.getD pos 0 : Nat) : Int) := by ring
          rw [h3] at h1
          exact h1.trans h2.symm
        obtain ⟨p, hp1, hp2, hp3, hp4⟩ := ih (H.set pos hash) (E.set pos entry)
          (H.getD pos 0) (E.getD pos default) ((pos + 1) &&& (2 ^ k - 1))
          ((wrappingSub pos (H.getD pos 0) &&& (2 ^ k - 1)) + 1) d H' E' hsome
          (by simpa using hH) hpos'lt hc hdist2
        have hppos : p ≠ pos := by
          intro he
          rw [he, getD_set_self _ _ _ _ hposH] at hp2
          exact hhash hp2
        refine ⟨p, hp1, ?_, hp3, hp4⟩
        rw [getD_set_ne _ _ _ _ _ (fun he => hppos he.symm)] at hp2
        exact hp2
      · rw [if_neg hs] at hsome
        have hdist2 : ((dist + 1 : Nat) : Int)
            ≡ ((((pos + 1) &&& (2 ^ k - 1) : Nat)) : Int) - ((hash : Nat) : Int)
              [ZMOD ((2 ^ k : Nat) : Int)] := by
          have h1 := hdist.add_right 1
          have h2 := hpos'cong.sub_right ((hash : Nat) : Int)
          refine Int.ModEq.trans ?_ h2.symm
          push_cast
          push_cast at h1
          calc ((dist : Int) + 1) ≡ (pos : Int) - hash + 1 [ZMOD _] := h1
            _ = (pos : Int) + 1 - hash := by ring
        exact ih H E hash entry ((pos + 1) &&& (2 ^ k - 1)) (dist + 1) d H' E' hsome
          hH hpos'lt hhash hdist2

/-! ### Bounds-checked reimplementation of the probing loop (claim C9) -/

/-- Bounds-checked variant of `insertLoop`: every slot access is guarded by
an explicit index check.  The outer `Option` is the failure branch of the
bounds check (`none` = out-of-bounds access attempted); the inner `Option`
mirrors the fuel-based result of `insertLoop`. -/
def insertLoopChecked {K : Type} [Inhabited K] (mask : Nat) :
    Nat → List Nat → List (Entry K) → Nat → Entry K → Nat → Nat →
    Option (Option (Nat × List Nat × List (Entry K)))
  | 0, _, _, _, _, _, _ => some none
  | fuel + 1, H, E, hash, entry, pos, dist =>
    if pos < H.length ∧ pos < E.length then
      if H.getD pos 0 = 0 then
        some (some (dist, H.set pos hash, E.set pos entry))
      else
        if wrappingSub pos (H.getD pos 0) &&& mask < dist then
          insertLoopChecked mask fuel (H.set pos hash) (E.set pos entry)
            (H.getD pos 0) (E.getD pos default)
            ((pos + 1) &&& mask) ((wrappingSub pos (H.getD pos 0) &&& mask) + 1)
        else
          insertLoopChecked mask fuel H E hash entry ((pos + 1) &&& mask) (dist + 1)
    else none

/-- `Builder::insert` reimplemented on top of the bounds-checked loop. -/
def Builder.insertChecked {K : Type} [Inhabited K] (b : Builder K) (key : K)
    (value : String) (fuel : Nat) : Option (Option (Nat × Builder K)) :=
  match insertLoopChecked (b.entries.length - 1) fuel b.hashes b.entries
      (b.hash key) ⟨key, value⟩ (b.hash key &&& (b.entries.length - 1)) 0 with
  | none => none
  | some none => some none
  | some (some (d, H, E)) => some (some (d, { b with hashes := H, entries := E }))

lemma insertLoopChecked_eq {K : Type} [Inhabited K] (mask : Nat) :
    ∀ (fuel : Nat) (H : List Nat) (E : List (Entry K)) (hash : Nat) (entry : Entry K)
      (pos dist : Nat),
      H.length = mask + 1 → E.length = mask + 1 → pos ≤ mask →
      insertLoopChecked mask fuel H E hash entry pos dist
        = some (insertLoop mask fuel H E hash entry pos dist) := by
  intro fuel
  induction fuel with
  | zero =>
    intro H E hash entry pos dist _ _ _
    rw [insertLoopChecked, insertLoop]
  | succ fuel ih =>
    intro H E hash entry pos dist hH hE hpos
    have hin : pos < H.length ∧ pos < E.length := by omega
    rw [insertLoopChecked, insertLoop, if_pos hin]
    by_cases hc : H.getD pos 0 = 0
    · rw [if_pos hc, if_pos hc]
    · rw [if_neg hc, if_neg hc]
      by_cases hs : wrappingSub pos (H.getD pos 0) &&& mask < dist
      · rw [if_pos hs, if_pos hs]
        exact ih _ _ _ _ _ _ (by simpa using hH) (by simpa using hE) and_mask_le
      · rw [if_neg hs, if_neg hs]
        exact ih _ _ _ _ _ _ hH hE and_mask_le

/-! ### Occupied-slot counting -/

/-- Number of occupied slots: slots whose stored hash is not the empty
sentinel. -/
def countOcc (H : List Nat) : Nat := (H.filter fun h => h != 0).length

lemma countOcc_cons (x : Nat) (t : List Nat) :
    countOcc (x :: t) = (if x = 0 then 0 else 1) + countOcc t := by
  by_cases hx : x = 0
  · subst hx
    simp [countOcc, List.filter_cons]
  · simp [countOcc, List.filter_cons, hx]
    omega

lemma occ_filter_len_cons {K : Type} (x : Nat) (y : Entry K) (t : List Nat)
    (s : List (Entry K)) :
    (List.filter occPred ((x :: t).zip (y :: s))).length
      = (if x = 0 then 0 else 1) + (List.filter occPred (t.zip s)).length := by
  by_cases hx : x = 0
  · subst hx
    simp [List.zip_cons_cons, List.filter_cons, occPred]
  · simp [List.zip_cons_cons, List.filter_cons, occPred, hx]
    omega

lemma card_occ_eq_countOcc {K : Type} :
    ∀ (H : List Nat) (E : List (Entry K)), H.length = E.length →
      Multiset.card (occ H E) = countOcc H := by
  intro H
  induction H with
  | nil =>
    intro E hlen
    simp [occ, countOcc]
  | cons x t ih =>
    intro E hlen
    cases E with
    | nil => simp at hlen
    | cons y s =>
      have hlen' : t.length = s.length := by simpa using hlen
      have hcard := ih s hlen'
      simp only [occ, Multiset.coe_card] at hcard ⊢
      rw [occ_filter_len_cons, countOcc_cons, hcard]

lemma countOcc_replicate_zero (n : Nat) : countOcc (List.replicate n 0) = 0 := by
  induction n with
  | zero => rfl
  | succ n ih =>
    simp only [countOcc, List.replicate_succ, List.filter_cons]
    have h0 : ((0 : Nat) != 0) = false := by simp
    rw [h0]
    exact ih

lemma exists_empty_of_countOcc_lt (H : List Nat) (n : Nat) (hlen : H.length = n)
    (hlt : countOcc H < n) : ∃ i, i < n ∧ H.getD i 0 = 0 := by
  by_contra hcon
  push_neg at hcon
  have hall : ∀ a ∈ H, (a != 0) = true := by
    intro a ha
    obtain ⟨i, hi, hgi⟩ := List.mem_iff_getElem.mp ha
    have : H.getD i 0 = a := by rw [List.getD_eq_getElem _ _ hi, hgi]
    have hne := hcon i (by omega)
    rw [this] at hne
    exact bne_iff_ne.mpr hne
  have : (H.filter fun h => h != 0) = H := List.filter_eq_self.mpr hall
  rw [countOcc, this, hlen] at hlt
  omega

/-! ### Packed insertion under the all-slot-zero hash (claim C4) -/

lemma insertLoop_all_zero_mod {K : Type} [Inhabited K] (k : Nat)
    (hdvd : (2 ^ k : Nat) ∣ USIZE) (j : Nat) (hj : j < 2 ^ k)
    (H : List Nat) (E : List (Entry K)) (hash : Nat) (entry : Entry K)
    (hH : H.length = 2 ^ k) (hE : E.length = 2 ^ k)
    (hinv : ∀ i, i < 2 ^ k →
      (i < j → H.getD i 0 ≠ 0 ∧ H.getD i 0 % 2 ^ k = 0) ∧ (j ≤ i → H.getD i 0 = 0)) :
    ∀ (f p : Nat), p ≤ j → j - p < f →
      insertLoop (2 ^ k - 1) f H E hash entry p p
        = some (j, H.set j hash, E.set j entry) := by
  have hcap : 0 < 2 ^ k := Nat.two_pow_pos k
  intro f
  induction f with
  | zero =>
    intro p _ hf
    omega
  | succ f ih =>
    intro p hp hf
    by_cases hpj : p = j
    · subst hpj
      have hc : H.getD p 0 = 0 := (hinv p (by omega)).2 (le_refl p)
      rw [insertLoop, if_pos hc]
    · have hplt : p < j := by omega
      have hocc := (hinv p (by omega)).1 hplt
      rw [insertLoop, if_neg hocc.1]
      have hpd : wrappingSub p (H.getD p 0) &&& (2 ^ k - 1) = p :=
        wrappingSub_and_mask_of_mod_zero k p (H.getD p 0) hdvd hocc.2 (by omega)
      rw [hpd, if_neg (lt_irrefl p)]
      have hpos' : (p + 1) &&& (2 ^ k - 1) = p + 1 := by
        rw [and_mask_eq_mod]
        exact Nat.mod_eq_of_lt (by omega)
      rw [hpos']
      exact ih (p + 1) (by omega) (by omega)

/-! ### Builder-level dispatch lemmas -/

lemma Builder.insert_eq_of_loop {K : Type} [Inhabited K] (b : Builder K) (key : K)
    (value : String) (fuel d : Nat) (H : List Nat) (E : List (Entry K))
    (h : insertLoop (b.entries.length - 1) fuel b.hashes b.entries (b.hash key)
      ⟨key, value⟩ (b.hash key &&& (b.entries.length - 1)) 0 = some (d, H, E)) :
    b.insert key value fuel = some (d, { b with hashes := H, entries := E }) := by
  unfold Builder.insert
  rw [h]

lemma Builder.insert_eq_none_of_loop {K : Type} [Inhabited K] (b : Builder K) (key : K)
    (value : String) (fuel : Nat)
    (h : insertLoop (b.entries.length - 1) fuel b.hashes b.entries (b.hash key)
      ⟨key, value⟩ (b.hash key &&& (b.entries.length - 1)) 0 = none) :
    b.insert key value fuel = none := by
  unfold Builder.insert
  rw [h]

lemma Builder.insert_some_inv {K : Type} [Inhabited K] (b : Builder K) (key : K)
    (value : String) (fuel : Nat) (r : Nat × Builder K)
    (h : b.insert key value fuel = some r) :
    ∃ d H E, insertLoop (b.entries.length - 1) fuel b.hashes b.entries (b.hash key)
        ⟨key, value⟩ (b.hash key &&& (b.entries.length - 1)) 0 = some (d, H, E) ∧
      r = (d, { b with hashes := H, entries := E }) := by
  unfold Builder.insert at h
  cases hl : insertLoop (b.entries.length - 1) fuel b.hashes b.entries (b.hash key)
      ⟨key, value⟩ (b.hash key &&& (b.entries.length - 1)) 0 with
  | none => rw [hl] at h; simp at h
  | some t =>
    obtain ⟨d, H, E⟩ := t
    rw [hl] at h
    simp only [Option.some.injEq] at h
    exact ⟨d, H, E, rfl, h.symm⟩

lemma hashOf_ne_zero {K : Type} (hasher : K → Nat) (key : K) : hashOf hasher key ≠ 0 := by
  unfold hashOf
  by_cases h : hasher key % USIZE = 0
  · rw [if_pos h]; omega
  · rw [if_neg h]; exact h

/-! ### The serializer (`Builder::build`) -/

/-- Concatenation of a list of strings (the stream of chunks written to the
sink, in order). -/
def strConcat : List String → String
  | [] => ""
  | s :: t => s ++ strConcat t

/-- Rust `Display` for `Entry`: `write!(f, "({}, {})", self.key, self.value)`. -/
def Entry.render {K : Type} (kStr : K → String) (e : Entry K) : String :=
  "(" ++ kStr e.key ++ ", " ++ e.value ++ ")"

/-- The `for hash in self.hashes.iter()` write loop of `Builder::build`,
with the sink modelled as an accumulating string. -/
def writeHashes : List Nat → String → String
  | [], acc => acc
  | h :: t, acc => writeHashes t (acc ++ (toString h ++ ", "))

/-- The `for entry in self.entries.iter()` write loop of `Builder::build`. -/
def writeEntries {K : Type} (kStr : K → String) : List (Entry K) → String → String
  | [], acc => acc
  | e :: t, acc => writeEntries kStr t (acc ++ (Entry.render kStr e ++ ", "))

/-- `Builder::build`: stream the opening marker, the stored-hash array, the
entry array, the hasher debug descriptor and the closing marker into the
sink.  The `io::Write` sink is modelled as an accumulated string; `{:?}` on
the hasher is the caller-supplied descriptor string `hasherDebug`. -/
def Builder.build {K : Type} (b : Builder K) (kStr : K → String)
    (hasherDebug : String) : String :=
  let s1 := "Map \x7b\n hashes: &["
  let s2 := writeHashes b.hashes s1
  let s3 := s2 ++ "  ],\n  entries: &[  \n"
  let s4 := writeEntries kStr b.entries s3
  let s5 := s4 ++ "  ],\n"
  let s6 := s5 ++ ("  hasher: " ++ hasherDebug ++ ",")
  s6 ++ "\x7d;\n\n"

lemma writeHashes_eq : ∀ (l : List Nat) (acc : String),
    writeHashes l acc = acc ++ strConcat (l.map fun h => toString h ++ ", ") := by
  intro l
  induction l with
  | nil =>
    intro acc
    rw [writeHashes, List.map_nil, strConcat, String.append_empty]
  | cons x t ih =>
    intro acc
    rw [writeHashes, List.map_cons, strConcat, ih, String.append_assoc]

lemma writeEntries_eq {K : Type} (kStr : K → String) :
    ∀ (l : List (Entry K)) (acc : String),
    writeEntries kStr l acc
      = acc ++ strConcat (l.map fun e => Entry.render kStr e ++ ", ") := by
  intro l
  induction l with
  | nil =>
    intro acc
    rw [writeEntries, List.map_nil, strConcat, String.append_empty]
  | cons x t ih =>
    intro acc
    rw [writeEntries, List.map_cons, strConcat, ih, String.append_assoc]

/-! ### The histogram (src/hist.rs) -/

/-- `Hist` from src/hist.rs: a dense, zero-indexed vector of counts. -/
structure Hist where
  counts : List Nat
deriving DecidableEq, Repr

/-- `Hist::new()`. -/
def Hist.new : Hist := ⟨[]⟩

/-- `Hist::insert(val)`: bump the count in range, otherwise zero-extend and
append a fresh count of 1. -/
def Hist.insert (h : Hist) (val : Nat) : Hist :=
  if val < h.counts.length then
    ⟨h.counts.set val (h.counts.getD val 0 + 1)⟩
  else
    ⟨h.counts ++ List.replicate (val - h.counts.length) 0 ++ [1]⟩

/-- Caller-side loop feeding a list of samples to `Hist::insert`. -/
def Hist.insertAll (h : Hist) (vals : List Nat) : Hist :=
  vals.foldl Hist.insert h

/-- Numerator of `Hist::average`: `sum(idx * count)` (exact, in `usize`). -/
def Hist.sumWeighted (h : Hist) : Nat :=
  (h.counts.enum.map fun p => p.1 * p.2).sum

/-- Denominator of `Hist::average`: `sum(count)` (exact, in `u32`). -/
def Hist.total (h : Hist) : Nat := h.counts.sum

/-- `Hist::average`: the two integer sums are formed exactly and only the
final division is `f32`.  Both sums are far below 2^24 in every claim
considered here, so the `f32` quotient is the correctly rounded image of
this exact rational value; we model the quotient exactly.  (Division by
zero — the empty histogram — yields `0` here where Rust yields NaN; no
claim below touches that case.) -/
def Hist.average (h : Hist) : Rat := (h.sumWeighted : Rat) / (h.total : Rat)

/-- One `write!(f, "{} => {}, ", idx, val)` chunk of the `Display`
implementation for `Hist`. -/
def entryLine (idx val : Nat) : String :=
  toString idx ++ " => " ++ toString val ++ ", "

/-- The write loop of `Hist`'s `Display` implementation, sink accumulated
as a string. -/
def reportLoop : List (Nat × Nat) → String → String
  | [], acc => acc
  | p :: t, acc => reportLoop t (acc ++ entryLine p.1 p.2)

/-- `Hist`'s `Display` implementation (`report()` in the specification):
iterate over `enumerate().skip_while(|(_, val)| val == 0)` and print
`"<idx> => <count>, "` for each remaining pair. -/
def Hist.report (h : Hist) : String :=
  reportLoop (h.counts.enum.dropWhile fun p => p.2 = 0) ""

/-- Modelled from the spec:  "produce `\"<index> => <count>, \"` for every
index starting at the first index with a nonzero count through the end of
the sequence" — rendered as: drop everything before the first nonzero
count, then print every remaining indexed pair verbatim. -/
def Hist.reportSpec (h : Hist) : String :=
  strConcat (((h.counts.enum).drop (h.counts.findIdx fun c => c ≠ 0)).map
    fun p => entryLine p.1 p.2)

lemma reportLoop_eq : ∀ (l : List (Nat × Nat)) (acc : String),
    reportLoop l acc = acc ++ strConcat (l.map fun p => entryLine p.1 p.2) := by
  intro l
  induction l with
  | nil =>
    intro acc
    rw [reportLoop, List.map_nil, strConcat, String.append_empty]
  | cons x t ih =>
    intro acc
    rw [reportLoop, List.map_cons, strConcat, ih, String.append_assoc]

lemma dropWhile_enumFrom_eq_drop : ∀ (l : List Nat) (n : Nat),
    ((List.enumFrom n l).dropWhile fun p => p.2 = 0)
      = (List.enumFrom n l).drop (l.findIdx fun c => c ≠ 0) := by
  intro l
  induction l with
  | nil => intro n; rfl
  | cons c t ih =>
    intro n
    rw [List.enumFrom_cons]
    by_cases hc : c = 0
    · subst hc
      simp [List.dropWhile_cons, List.findIdx_cons, ih (n + 1)]
    · simp [List.dropWhile_cons, List.findIdx_cons, hc]

lemma Hist.report_eq_reportSpec (h : Hist) : h.report = h.reportSpec := by
  show reportLoop ((List.enumFrom 0 h.counts).dropWhile fun p => p.2 = 0) ""
      = Hist.reportSpec h
  rw [reportLoop_eq, dropWhile_enumFrom_eq_drop]
  rw [Hist.reportSpec]
  exact String.empty_append _

/-! ### Aggregate lemmas over insertion sequences -/

lemma offset_to_index (n p i : Nat) (hp : p < n) (hi : i < n) :
    (p + (i + n - p) % n) % n = i := by
  have h1 : (p + (i + n - p) % n) % n = (p + (i + n - p)) % n :=
    Nat.ModEq.add_left p (Nat.mod_modEq (i + n - p) n)
  rw [h1, show p + (i + n - p) = i + n by omega, Nat.add_mod_right]
  exact Nat.mod_eq_of_lt hi

lemma insertAll_fresh_invariants {K : Type} [Inhabited K] (k : Nat) :
    ∀ (pairs : List (K × String)) (b : Builder K),
      b.hashes.length = 2 ^ k → b.entries.length = 2 ^ k →
      countOcc b.hashes + pairs.length ≤ 2 ^ k →
      (∀ i, i < 2 ^ k → b.hashes.getD i 0 ≠ 0 →
        b.hashes.getD i 0 = hashOf b.hasher ((b.entries.getD i default).key)) →
      (∀ i, i < 2 ^ k → b.hashes.getD i 0 = 0 → b.entries.getD i default = default) →
      ∃ ds b', b.insertAll pairs (2 ^ k) = some (ds, b') ∧
        b'.hasher = b.hasher ∧
        b'.hashes.length = 2 ^ k ∧ b'.entries.length = 2 ^ k ∧
        countOcc b'.hashes = countOcc b.hashes + pairs.length ∧
        (∀ i, i < 2 ^ k → b'.hashes.getD i 0 ≠ 0 →
          b'.hashes.getD i 0 = hashOf b.hasher ((b'.entries.getD i default).key)) ∧
        (∀ i, i < 2 ^ k → b'.hashes.getD i 0 = 0 → b'.entries.getD i default = default) := by
  have hcap : 0 < 2 ^ k := Nat.two_pow_pos k
  intro pairs
  induction pairs with
  | nil =>
    intro b hH hE hcnt hgood hzero
    exact ⟨[], b, rfl, rfl, hH, hE, by simp, hgood, hzero⟩
  | cons q rest ih =>
    intro b hH hE hcnt hgood hzero
    obtain ⟨key, val⟩ := q
    have hhash : b.hash key ≠ 0 := hashOf_ne_zero b.hasher key
    have hmask1 : (2 ^ k - 1) + 1 = 2 ^ k := by omega
    rw [List.length_cons] at hcnt
    -- there is a free slot, so the probing loop terminates with fuel 2^k
    obtain ⟨i, hi, hiz⟩ := exists_empty_of_countOcc_lt b.hashes (2 ^ k) hH (by omega)
    have hp0 : b.hash key &&& (2 ^ k - 1) < 2 ^ k := and_mask_lt k _
    have hempty : b.hashes.getD
        (((b.hash key &&& (2 ^ k - 1)) + (i + 2 ^ k - (b.hash key &&& (2 ^ k - 1))) % 2 ^ k)
          % 2 ^ k) 0 = 0 := by
      rw [offset_to_index (2 ^ k) _ i hp0 hi]
      exact hiz
    have hjlt : (i + 2 ^ k - (b.hash key &&& (2 ^ k - 1))) % 2 ^ k < 2 ^ k :=
      Nat.mod_lt _ hcap
    obtain ⟨r, hr, _⟩ := insertLoop_progress k
      ((i + 2 ^ k - (b.hash key &&& (2 ^ k - 1))) % 2 ^ k) (2 ^ k)
      b.hashes b.entries (b.hash key) ⟨key, val⟩ (b.hash key &&& (2 ^ k - 1)) 0
      hH hE hp0 hhash hempty hjlt
    obtain ⟨d, H', E'⟩ := r
    have hloop : insertLoop (b.entries.length - 1) (2 ^ k) b.hashes b.entries
        (b.hash key) ⟨key, val⟩ (b.hash key &&& (b.entries.length - 1)) 0
        = some (d, H', E') := by
      rw [hE]; exact hr
    have hins := Builder.insert_eq_of_loop b key val (2 ^ k) d H' E' hloop
    have hlens := insertLoop_lengths (2 ^ k - 1) (2 ^ k) b.hashes b.entries
      (b.hash key) ⟨key, val⟩ (b.hash key &&& (2 ^ k - 1)) 0 d H' E' hr
    have hH2 : H'.length = 2 ^ k := by omega
    have hE2 : E'.length = 2 ^ k := by omega
    have hocc := insertLoop_occ (2 ^ k - 1) (2 ^ k) b.hashes b.entries
      (b.hash key) ⟨key, val⟩ (b.hash key &&& (2 ^ k - 1)) 0 d H' E' hr
      (by omega) (by omega) (by omega) hhash
    have hcnt2 : countOcc H' = countOcc b.hashes + 1 := by
      have h1 := card_occ_eq_countOcc H' E' (by omega)
      have h2 := card_occ_eq_countOcc b.hashes b.entries (K := K) (by omega)
      rw [hocc] at h1
      rw [Multiset.card_add, h2, Multiset.card_singleton] at h1
      omega
    have hgood2 : ∀ i, i < 2 ^ k → H'.getD i 0 ≠ 0 →
        H'.getD i 0 = hashOf b.hasher ((E'.getD i default).key) := by
      have hg := insertLoop_good (2 ^ k - 1)
        (fun h e => h = hashOf b.hasher e.key) (2 ^ k) b.hashes b.entries
        (b.hash key) ⟨key, val⟩ (b.hash key &&& (2 ^ k - 1)) 0 d H' E' hr
        (by omega) (by omega) (by omega) rfl
        (fun i hilt hocc0 => hgood i (by omega) hocc0)
      intro i hilt hocc0
      exact hg i (by omega) hocc0
    have hzero2 : ∀ i, i < 2 ^ k → H'.getD i 0 = 0 → E'.getD i default = default := by
      have hz := insertLoop_zero_default (2 ^ k - 1) (2 ^ k) b.hashes b.entries
        (b.hash key) ⟨key, val⟩ (b.hash key &&& (2 ^ k - 1)) 0 d H' E' hr
        (by omega) (by omega) (by omega) hhash
        (fun i hilt hz0 => hzero i (by omega) hz0)
      intro i hilt hz0
      exact hz i (by omega) hz0
    obtain ⟨ds, b', hall, hhasher, hbH, hbE, hbcnt, hbgood, hbzero⟩ :=
      ih { b with hashes := H', entries := E' } hH2 hE2
        (by show countOcc H' + rest.length ≤ 2 ^ k; omega)
        (by intro i hilt hocc0; exact hgood2 i hilt hocc0)
        (by intro i hilt hz0; exact hzero2 i hilt hz0)
    refine ⟨d :: ds, b', ?_, hhasher, hbH, hbE, ?_, hbgood, hbzero⟩
    · simp only [Builder.insertAll, hins, hall]
    · rw [hbcnt]
      show countOcc H' + rest.length = countOcc b.hashes + (rest.length + 1)
      omega

lemma insertAll_all_zero_mod {K : Type} [Inhabited K] (k : Nat)
    (hdvd : (2 ^ k : Nat) ∣ USIZE) :
    ∀ (pairs : List (K × String)) (j : Nat) (b : Builder K),
      b.hashes.length = 2 ^ k → b.entries.length = 2 ^ k →
      j + pairs.length < 2 ^ k →
      (∀ q ∈ pairs, hashOf b.hasher q.1 % 2 ^ k = 0) →
      (∀ i, i < 2 ^ k →
        (i < j → b.hashes.getD i 0 ≠ 0 ∧ b.hashes.getD i 0 % 2 ^ k = 0) ∧
        (j ≤ i → b.hashes.getD i 0 = 0)) →
      ∃ b', b.insertAll pairs (2 ^ k) = some (List.range' j pairs.length, b') ∧
        (∀ i, i < 2 ^ k →
          (i < j + pairs.length → b'.hashes.getD i 0 ≠ 0) ∧
          (j + pairs.length ≤ i → b'.hashes.getD i 0 = 0)) := by
  have hcap : 0 < 2 ^ k := Nat.two_pow_pos k
  intro pairs
  induction pairs with
  | nil =>
    intro j b hH hE hlt _ hinv
    refine ⟨b, rfl, ?_⟩
    rw [List.length_nil]
    intro i hi
    exact ⟨fun hlt2 => ((hinv i hi).1 (by omega)).1,
      fun hge => (hinv i hi).2 (by omega)⟩
  | cons q rest ih =>
    intro j b hH hE hlt hmod hinv
    obtain ⟨key, val⟩ := q
    rw [List.length_cons] at hlt
    have hjlt : j < 2 ^ k := by omega
    have hhash : b.hash key ≠ 0 := hashOf_ne_zero b.hasher key
    have hhashm : b.hash key % 2 ^ k = 0 := hmod (key, val) (List.mem_cons_self _ _)
    have hjH : j < b.hashes.length := by omega
    have hjE : j < b.entries.length := by omega
    have hloop := insertLoop_all_zero_mod k hdvd j hjlt b.hashes b.entries
      (b.hash key) ⟨key, val⟩ hH hE hinv (2 ^ k) 0 (by omega) (by omega)
    have hpos0 : b.hash key &&& (2 ^ k - 1) = 0 := by
      rw [and_mask_eq_mod]
      exact hhashm
    have hloop' : insertLoop (b.entries.length - 1) (2 ^ k) b.hashes b.entries
        (b.hash key) ⟨key, val⟩ (b.hash key &&& (b.entries.length - 1)) 0
        = some (j, b.hashes.set j (b.hash key), b.entries.set j ⟨key, val⟩) := by
      rw [hE, hpos0]
      exact hloop
    have hins := Builder.insert_eq_of_loop b key val (2 ^ k) j
      (b.hashes.set j (b.hash key)) (b.entries.set j ⟨key, val⟩) hloop'
    have hinv2 : ∀ i, i < 2 ^ k →
        (i < j + 1 → (b.hashes.set j (b.hash key)).getD i 0 ≠ 0 ∧
          (b.hashes.set j (b.hash key)).getD i 0 % 2 ^ k = 0) ∧
        (j + 1 ≤ i → (b.hashes.set j (b.hash key)).getD i 0 = 0) := by
      intro i hi
      constructor
      · intro hi2
        by_cases hij : j = i
        · subst hij
          rw [getD_set_self _ _ _ _ hjH]
          exact ⟨hhash, hhashm⟩
        · rw [getD_set_ne _ _ _ _ _ hij]
          exact (hinv i hi).1 (by omega)
      · intro hi2
        have hij : j ≠ i := by omega
        rw [getD_set_ne _ _ _ _ _ hij]
        exact (hinv i hi).2 (by omega)
    obtain ⟨b', hall, hconc⟩ :=
      ih (j + 1) { b with hashes := b.hashes.set j (b.hash key),
                          entries := b.entries.set j ⟨key, val⟩ }
        (by simpa using hH) (by simpa using hE) (by omega)
        (by intro q hq; exact hmod q (List.mem_cons_of_mem _ hq))
        (by intro i hi; exact hinv2 i hi)
    refine ⟨b', ?_, ?_⟩
    · simp only [Builder.insertAll, hins, hall]
      rw [List.length_cons, List.range'_succ]
    · rw [List.length_cons]
      intro i hi
      exact ⟨fun hlt2 => (hconc i hi).1 (by omega),
        fun hge => (hconc i hi).2 (by omega)⟩

/-! ### Capacity-planning lemmas -/

lemma npotAux_pow (n : Nat) :
    ∀ (fuel p : Nat), (∃ j, p = 2 ^ j) → ∃ m, npotAux n p fuel = 2 ^ m := by
  intro fuel
  induction fuel with
  | zero =>
    intro p hp
    exact hp.imp fun j hj => by rw [npotAux, hj]
  | succ fuel ih =>
    intro p hp
    rw [npotAux]
    by_cases h : n ≤ p
    · rw [if_pos h]; exact hp
    · rw [if_neg h]
      refine ih (2 * p) ?_
      obtain ⟨j, rfl⟩ := hp
      exact ⟨j + 1, by ring⟩

lemma npotAux_ge (n : Nat) :
    ∀ (fuel p : Nat), n ≤ p * 2 ^ fuel → n ≤ npotAux n p fuel := by
  intro fuel
  induction fuel with
  | zero =>
    intro p hp
    rw [npotAux]
    simpa using hp
  | succ fuel ih =>
    intro p hp
    rw [npotAux]
    by_cases h : n ≤ p
    · rw [if_pos h]; exact h
    · rw [if_neg h]
      refine ih (2 * p) ?_
      calc n ≤ p * 2 ^ (fuel + 1) := hp
        _ = 2 * p * 2 ^ fuel := by ring

lemma nextPowerOfTwo_pow (n : Nat) : ∃ m, nextPowerOfTwo n = 2 ^ m :=
  npotAux_pow n n 1 ⟨0, rfl⟩

lemma nextPowerOfTwo_ge (n : Nat) : n ≤ nextPowerOfTwo n :=
  npotAux_ge n n 1 (by simpa using le_of_lt (Nat.lt_two_pow n))

lemma tableCapacity_pow (s : Nat) : ∃ m, tableCapacity s = 2 ^ m := by
  unfold tableCapacity MIN_TABLE_SIZE
  obtain ⟨m, hm⟩ := nextPowerOfTwo_pow (s * 10 / 9)
  by_cases h : nextPowerOfTwo (s * 10 / 9) ≤ 32
  · rw [max_eq_right h]
    exact ⟨5, rfl⟩
  · rw [max_eq_left (le_of_not_le h)]
    exact ⟨m, hm⟩

lemma tableCapacity_ge_min (s : Nat) : 32 ≤ tableCapacity s :=
  le_max_right _ _

lemma tableCapacity_ge_floor (s : Nat) : s * 10 / 9 ≤ tableCapacity s :=
  le_trans (nextPowerOfTwo_ge _) (le_max_left _ _)

/-! ### Concrete example tables used by witnesses and counterexamples -/

/-- Hash function used for the concrete runs: the identity on `Nat` keys
(an in-range `u64` digest). -/
def exHasher : Nat → Nat := fun n => n

/-- Fresh builder for 3 expected entries (capacity 32). -/
def exB : Builder Nat := Builder.withCapacity Nat 3 exHasher

/-- Concrete insertion run exhibiting a displacement swap: keys hash to
slots 5, 5, 7, 5 in order. -/
def exRun : Option (List Nat × Builder Nat) :=
  exB.insertAll [(5, "a"), (5, "b"), (7, "c"), (5, "d")] 32

/-- Result of a single concrete insertion into the fresh table. -/
def exIns : Option (Nat × Builder Nat) := exB.insert 5 "a" 32

/-- The builder state after that single insertion. -/
def exB1 : Builder Nat := (exIns.getD (0, exB)).2

/-- Hash function sending every key to a nonzero multiple of 32, so every
remapped hash lands on slot 0 of a 32-slot table. -/
def exHasher32 : Nat → Nat := fun n => 32 * (n + 1)

/-- Fresh builder driven by the all-slot-zero hash function. -/
def exB32 : Builder Nat := Builder.withCapacity Nat 3 exHasher32

/-- A completely full 32-slot table (every stored hash nonzero). -/
def exFullB : Builder Nat :=
  { hashes := List.replicate 32 1
    entries := List.replicate 32 default
    hasher := exHasher }

/-! ### Claim theorems -/

/-- Claim C1, counterexample.  The claim states
`capacity = max(32, next_power_of_two(ceil(n * 10 / 9)))` and
`capacity(n) ≥ ceil(n*10/9)` for n in 1..1000.  Both fail at n = 29: the
code floor-divides (`29*10/9 = 32`), giving capacity 32, while the claimed
ceiling formula (`ceil(290/9) = 33`) yields 64; moreover 32 < 33, so the
capacity is below the claimed ceiling bound. -/
theorem capacity_ceil_claim_counterexample :
    tableCapacity 29 = 32 ∧
    (29 * 10 + 8) / 9 = 33 ∧
    max 32 (nextPowerOfTwo ((29 * 10 + 8) / 9)) = 64 ∧
    ¬ tableCapacity 29 = max 32 (nextPowerOfTwo ((29 * 10 + 8) / 9)) ∧
    ¬ (29 * 10 + 8) / 9 ≤ tableCapacity 29 := by
  refine ⟨?_, ?_, ?_, ?_, ?_⟩ <;> decide

/-- Claim C1, amended: for every expected entry count n,
`Builder.with_capacity(n)` computes the capacity as
`max(32, next_power_of_two(floor(n * 10 / 9)))` (the code floor-divides);
in particular for every n (hence for every n in 1..1000) the capacity is a
power of two, is at least 32, and is at least `floor(n*10/9)`. -/
theorem capacity_floor_formula (n : Nat) :
    tableCapacity n = max 32 (nextPowerOfTwo (n * 10 / 9)) ∧
    (∃ m, tableCapacity n = 2 ^ m) ∧
    32 ≤ tableCapacity n ∧
    n * 10 / 9 ≤ tableCapacity n := by
  refine ⟨?_, tableCapacity_pow n, tableCapacity_ge_min n, tableCapacity_ge_floor n⟩
  unfold tableCapacity MIN_TABLE_SIZE
  exact Nat.max_comm _ _

/-- Claim C6, counterexample.  Inserting `[0, 0, 3, 3, 3]` leaves counts
`[2, 0, 0, 3]`; the report loop skips only the *leading* zero run (there is
none, since counts[0] = 2), so the zero-count buckets 1 and 2 are printed
and the output is not `"0 => 2, 3 => 3, "`. -/
theorem hist_arith_claim_counterexample :
    ¬ ((Hist.new.insertAll [0, 0, 3, 3, 3]).average = 1.8 ∧
       (Hist.new.insertAll [0, 0, 3, 3, 3]).report = "0 => 2, 3 => 3, ") :=
  fun hcon => absurd hcon.2 (by decide)

/-- Claim C6, amended: inserting the values [0, 0, 3, 3, 3] into a fresh
histogram yields average() equal to 1.8 and report() textually equal to
`"0 => 2, 1 => 0, 2 => 0, 3 => 3, "` (interior zero-count buckets are
printed; only a leading zero run is suppressed). -/
theorem hist_average_and_report :
    (Hist.new.insertAll [0, 0, 3, 3, 3]).average = 1.8 ∧
    (Hist.new.insertAll [0, 0, 3, 3, 3]).report
      = "0 => 2, 1 => 0, 2 => 0, 3 => 3, " := by
  constructor
  · have h1 : Hist.new.insertAll [0, 0, 3, 3, 3] = ⟨[2, 0, 0, 3]⟩ := by decide
    have h2 : Hist.sumWeighted ⟨[2, 0, 0, 3]⟩ = 9 := by decide
    have h3 : Hist.total ⟨[2, 0, 0, 3]⟩ = 5 := by decide
    rw [h1, Hist.average, h2, h3]
    norm_num
  · decide

/-- Claim C7: for every histogram state, report() renders
`"<index> => <count>, "` for every index from the first index with a
nonzero count through the end of the counts sequence (leading zero-count
indices omitted, later zero-count indices included verbatim); and
inserting [2, 2] into a fresh histogram reports `"2 => 2, "`. -/
theorem report_skips_only_leading_zeros :
    (∀ h : Hist, h.report = h.reportSpec) ∧
    (Hist.new.insertAll [2, 2]).report = "2 => 2, " :=
  ⟨Hist.report_eq_reportSpec, by decide⟩

/-- Claim C8: Builder.build streams, in slot order, the full stored-hash
sequence, then the full entry sequence (each entry rendered as
"(key, value)"), then the hash-function descriptor, between an opening and
a closing marker; and the output is a pure function of the slot contents
and the descriptor, so equal table states serialize to byte-identical
output. -/
theorem build_streams_deterministically :
    (∀ (K : Type) (b : Builder K) (kStr : K → String) (dbg : String),
      b.build kStr dbg
        = "Map \x7b\n hashes: &["
          ++ strConcat (b.hashes.map fun h => toString h ++ ", ")
          ++ "  ],\n  entries: &[  \n"
          ++ strConcat (b.entries.map fun e => Entry.render kStr e ++ ", ")
          ++ "  ],\n" ++ ("  hasher: " ++ dbg ++ ",") ++ "\x7d;\n\n") ∧
    (∀ (K : Type) (b₁ b₂ : Builder K) (kStr : K → String) (dbg : String),
      b₁.hashes = b₂.hashes → b₁.entries = b₂.entries →
      b₁.build kStr dbg = b₂.build kStr dbg) := by
  constructor
  · intro K b kStr dbg
    simp only [Builder.build]
    rw [writeHashes_eq, writeEntries_eq]
  · intro K b₁ b₂ kStr dbg h1 h2
    simp only [Builder.build]
    rw [h1, h2]

/-- Witness for C8 at a concrete table: serializing the same state twice
gives identical bytes. -/
theorem build_streams_deterministically_witness :
    exB.build (fun n => toString n) "FnvBuildHasher"
      = exB.build (fun n => toString n) "FnvBuildHasher" :=
  build_streams_deterministically.2 Nat exB exB (fun n => toString n)
    "FnvBuildHasher" rfl rfl

/-- Claim C9: on a table whose two sequences both have length equal to the
power-of-two capacity, every slot access of the probing loop is in bounds:
the bounds-checked reimplementation never takes its failure branch and
computes exactly the same result as the unchecked loop, at every fuel. -/
theorem insert_bounds_checked_equiv {K : Type} [Inhabited K] (b : Builder K)
    (key : K) (value : String) (fuel k : Nat)
    (hH : b.hashes.length = 2 ^ k) (hE : b.entries.length = 2 ^ k) :
    b.insertChecked key value fuel = some (b.insert key value fuel) := by
  have hcap : 0 < 2 ^ k := Nat.two_pow_pos k
  have hmask : b.hashes.length = b.entries.length - 1 + 1 := by omega
  have hcheck := insertLoopChecked_eq (b.entries.length - 1) fuel b.hashes b.entries
    (b.hash key) ⟨key, value⟩ (b.hash key &&& (b.entries.length - 1)) 0
    hmask (by omega) and_mask_le
  unfold Builder.insertChecked Builder.insert
  rw [hcheck]
  cases hl : insertLoop (b.entries.length - 1) fuel b.hashes b.entries (b.hash key)
      ⟨key, value⟩ (b.hash key &&& (b.entries.length - 1)) 0 with
  | none => rfl
  | some t =>
    obtain ⟨d, H, E⟩ := t
    rfl

/-- Witness for C9: the checked and unchecked insertion agree on a
concrete 32-slot table. -/
theorem insert_bounds_checked_equiv_witness :
    exB.insertChecked 5 "a" 32 = some (exB.insert 5 "a" 32) :=
  insert_bounds_checked_equiv exB 5 "a" 32 5 (by decide) (by decide)

/-- Claim C5: on a power-of-two-capacity table with at least one empty
slot, the probing loop of Builder.insert terminates within capacity
iterations (fuel = capacity suffices); if every slot is occupied, the loop
never finds the empty sentinel and runs forever (returns none at every
fuel). -/
theorem insert_terminates_iff_free_slot {K : Type} [Inhabited K] (b : Builder K)
    (key : K) (value : String) (k : Nat)
    (hH : b.hashes.length = 2 ^ k) (hE : b.entries.length = 2 ^ k) :
    ((∃ i, i < 2 ^ k ∧ b.hashes.getD i 0 = 0) →
      (b.insert key value (2 ^ k)).isSome = true) ∧
    ((∀ i, i < 2 ^ k → b.hashes.getD i 0 ≠ 0) →
      ∀ fuel, b.insert key value fuel = none) := by
  have hcap : 0 < 2 ^ k := Nat.two_pow_pos k
  have hhash : b.hash key ≠ 0 := hashOf_ne_zero b.hasher key
  have hp0 : b.hash key &&& (2 ^ k - 1) < 2 ^ k := and_mask_lt k _
  constructor
  · rintro ⟨i, hi, hiz⟩
    have hempty : b.hashes.getD
        (((b.hash key &&& (2 ^ k - 1)) +
            (i + 2 ^ k - (b.hash key &&& (2 ^ k - 1))) % 2 ^ k) % 2 ^ k) 0 = 0 := by
      rw [offset_to_index (2 ^ k) _ i hp0 hi]
      exact hiz
    obtain ⟨r, hr, _⟩ := insertLoop_progress k
      ((i + 2 ^ k - (b.hash key &&& (2 ^ k - 1))) % 2 ^ k) (2 ^ k)
      b.hashes b.entries (b.hash key) ⟨key, value⟩ (b.hash key &&& (2 ^ k - 1)) 0
      hH hE hp0 hhash hempty (Nat.mod_lt _ hcap)
    obtain ⟨d, H', E'⟩ := r
    have hloop : insertLoop (b.entries.length - 1) (2 ^ k) b.hashes b.entries
        (b.hash key) ⟨key, value⟩ (b.hash key &&& (b.entries.length - 1)) 0
        = some (d, H', E') := by
      rw [hE]; exact hr
    rw [Builder.insert_eq_of_loop b key value (2 ^ k) d H' E' hloop]
    rfl
  · intro hfull fuel
    refine Builder.insert_eq_none_of_loop b key value fuel ?_
    rw [hE]
    refine insertLoop_none_of_full (2 ^ k - 1) fuel b.hashes b.entries
      (b.hash key) ⟨key, value⟩ (b.hash key &&& (2 ^ k - 1)) 0
      (by omega) and_mask_le hhash ?_
    intro i hi
    exact hfull i (by omega)

/-- Witness for C5: the loop terminates with fuel 32 on a fresh 32-slot
table, and returns none (here at fuel 7) on a completely full table. -/
theorem insert_terminates_iff_free_slot_witness :
    (exB.insert 5 "a" (2 ^ 5)).isSome = true ∧ exFullB.insert 5 "a" 7 = none := by
  constructor
  · exact (insert_terminates_iff_free_slot exB 5 "a" 5 (by decide) (by decide)).1
      ⟨0, by decide, by decide⟩
  · exact (insert_terminates_iff_free_slot exFullB 5 "a" 5 (by decide) (by decide)).2
      (by decide) 7

/-- Claim C10: every terminating Builder.insert adds exactly the newly
inserted pair (remapped hash, entry) to the multiset of occupied-slot
contents: nothing is lost or duplicated by the swap chain, previously
occupied slots stay occupied, and the occupied-slot count grows by exactly
one. -/
theorem insert_adds_exactly_new_pair {K : Type} [Inhabited K] (b : Builder K)
    (key : K) (value : String) (fuel : Nat) (r : Nat × Builder K)
    (hlen : b.hashes.length = b.entries.length) (hpos : 0 < b.entries.length)
    (hins : b.insert key value fuel = some r) :
    occ r.2.hashes r.2.entries
      = occ b.hashes b.entries + {(b.hash key, ⟨key, value⟩)} ∧
    (∀ i, b.hashes.getD i 0 ≠ 0 → r.2.hashes.getD i 0 ≠ 0) ∧
    countOcc r.2.hashes = countOcc b.hashes + 1 := by
  have hhash : b.hash key ≠ 0 := hashOf_ne_zero b.hasher key
  obtain ⟨d, H', E', hloop, hr⟩ := Builder.insert_some_inv b key value fuel r hins
  subst hr
  have hmask : b.hashes.length = (b.entries.length - 1) + 1 := by omega
  have hE' : b.entries.length = (b.entries.length - 1) + 1 := by omega
  have hocc := insertLoop_occ (b.entries.length - 1) fuel b.hashes b.entries
    (b.hash key) ⟨key, value⟩ (b.hash key &&& (b.entries.length - 1)) 0 d H' E'
    hloop hmask hE' and_mask_le hhash
  have hlens := insertLoop_lengths (b.entries.length - 1) fuel b.hashes b.entries
    (b.hash key) ⟨key, value⟩ (b.hash key &&& (b.entries.length - 1)) 0 d H' E' hloop
  refine ⟨hocc, ?_, ?_⟩
  · intro i hi
    exact insertLoop_occupied_mono (b.entries.length - 1) fuel b.hashes b.entries
      (b.hash key) ⟨key, value⟩ (b.hash key &&& (b.entries.length - 1)) 0 d H' E'
      hloop hmask and_mask_le hhash i hi
  · have h1 : Multiset.card (occ H' E') = countOcc H' :=
      card_occ_eq_countOcc H' E' (by omega)
    have h2 : Multiset.card (occ b.hashes b.entries) = countOcc b.hashes :=
      card_occ_eq_countOcc b.hashes b.entries hlen
    rw [hocc, Multiset.card_add, h2, Multiset.card_singleton] at h1
    exact h1.symm

/-- Witness for C10 at a concrete insertion into the fresh 32-slot
table. -/
theorem insert_adds_exactly_new_pair_witness :
    occ exB1.hashes exB1.entries
      = occ exB.hashes exB.entries + {(exB.hash 5, ⟨5, "a"⟩)} ∧
    (∀ i, exB.hashes.getD i 0 ≠ 0 → exB1.hashes.getD i 0 ≠ 0) ∧
    countOcc exB1.hashes = countOcc exB.hashes + 1 :=
  insert_adds_exactly_new_pair exB 5 "a" 32 (exIns.getD (0, exB))
    (by decide) (by decide) rfl

/-- Claim C3: inserting m ≤ capacity pairwise-distinct keys, under a hash
function collision-free on them, into a fresh Builder leaves exactly m
occupied slots; every occupied slot i stores
`hashes[i] = remap(hash(entries[i].key))`, and every slot whose stored
hash is the empty sentinel 0 still holds the default (unoccupied) entry,
so `hashes[i] = 0` exactly characterizes the unoccupied slots. -/
theorem fresh_distinct_inserts_table_invariants {K : Type} [Inhabited K]
    (n m : Nat) (hasher : K → Nat) (pairs : List (K × String))
    (hm : pairs.length = m) (hmle : m ≤ tableCapacity n)
    (hdistinct : pairs.Pairwise fun p q => p.1 ≠ q.1)
    (hcollfree : pairs.Pairwise fun p q => hashOf hasher p.1 ≠ hashOf hasher q.1) :
    ∃ ds b', (Builder.withCapacity K n hasher).insertAll pairs (tableCapacity n)
        = some (ds, b') ∧
      countOcc b'.hashes = m ∧
      (∀ i, i < tableCapacity n → b'.hashes.getD i 0 ≠ 0 →
        b'.hashes.getD i 0 = hashOf hasher ((b'.entries.getD i default).key)) ∧
      (∀ i, i < tableCapacity n → b'.hashes.getD i 0 = 0 →
        b'.entries.getD i default = default) := by
  obtain ⟨k, hk⟩ := tableCapacity_pow n
  rw [hk]
  have hfresh0 : countOcc (Builder.withCapacity K n hasher).hashes = 0 := by
    show countOcc (List.replicate (tableCapacity n) 0) = 0
    exact countOcc_replicate_zero _
  obtain ⟨ds, b', hall, _, _, _, hcnt, hgood, hzero⟩ :=
    insertAll_fresh_invariants k pairs (Builder.withCapacity K n hasher)
      (by show (List.replicate (tableCapacity n) 0).length = 2 ^ k; simp [hk])
      (by show (List.replicate (tableCapacity n)
            (default : Entry K)).length = 2 ^ k; simp [hk])
      (by rw [hfresh0, hm]; omega)
      (by
        intro i hi hocc0
        exfalso
        refine hocc0 ?_
        show (List.replicate (tableCapacity n) 0).getD i 0 = 0
        exact getD_replicate _ _ _ _ (by omega))
      (by
        intro i hi _
        show (List.replicate (tableCapacity n) (default : Entry K)).getD i default
          = default
        exact getD_replicate _ _ _ _ (by omega))
  refine ⟨ds, b', hall, ?_, hgood, hzero⟩
  rw [hcnt, hfresh0, hm]
  omega

/-- Witness for C3: two distinct keys into a fresh capacity-32 table. -/
theorem fresh_distinct_inserts_table_invariants_witness :
    ∃ ds b', (Builder.withCapacity Nat 1 exHasher).insertAll
        [(1, "x"), (2, "y")] (tableCapacity 1) = some (ds, b') ∧
      countOcc b'.hashes = 2 ∧
      (∀ i, i < tableCapacity 1 → b'.hashes.getD i 0 ≠ 0 →
        b'.hashes.getD i 0 = hashOf exHasher ((b'.entries.getD i default).key)) ∧
      (∀ i, i < tableCapacity 1 → b'.hashes.getD i 0 = 0 →
        b'.entries.getD i default = default) :=
  fresh_distinct_inserts_table_invariants 1 2 exHasher [(1, "x"), (2, "y")]
    rfl (by decide) (by decide) (by decide)

/-- Claim C4: with a hash function whose remapped hashes all land on slot
0, inserting k < capacity distinct keys into a fresh Builder returns the
displacements 0, 1, …, k−1 in insertion order (exactly the set
{0, …, k−1}, one insertion per value) and packs the entries into slots 0
through k−1, all later slots staying empty. -/
theorem all_to_slot_zero_packed_displacements {K : Type} [Inhabited K]
    (k : Nat) (b : Builder K) (pairs : List (K × String))
    (hdvd : (2 ^ k : Nat) ∣ USIZE)
    (hfreshH : b.hashes = List.replicate (2 ^ k) 0)
    (hfreshE : b.entries = List.replicate (2 ^ k) default)
    (hk : pairs.length < 2 ^ k)
    (hdistinct : pairs.Pairwise fun p q => p.1 ≠ q.1)
    (hzero : ∀ q ∈ pairs, hashOf b.hasher q.1 % 2 ^ k = 0) :
    ∃ b', b.insertAll pairs (2 ^ k) = some (List.range pairs.length, b') ∧
      (∀ i, i < pairs.length → b'.hashes.getD i 0 ≠ 0) ∧
      (∀ i, pairs.length ≤ i → i < 2 ^ k → b'.hashes.getD i 0 = 0) := by
  obtain ⟨b', hall, hconc⟩ := insertAll_all_zero_mod k hdvd pairs 0 b
    (by rw [hfreshH]; simp) (by rw [hfreshE]; simp) (by omega) hzero
    (by
      intro i hi
      refine ⟨fun h0 => absurd h0 (by omega), fun _ => ?_⟩
      rw [hfreshH]
      exact getD_replicate _ _ _ _ hi)
  refine ⟨b', ?_, ?_, ?_⟩
  · rw [List.range_eq_range']
    exact hall
  · intro i hi
    exact (hconc i (by omega)).1 (by omega)
  · intro i hge hi
    exact (hconc i hi).2 (by omega)

/-- Witness for C4: three keys all hashing to multiples of 32 inserted
into a fresh capacity-32 table. -/
theorem all_to_slot_zero_packed_displacements_witness :
    ∃ b', exB32.insertAll [(0, "a"), (1, "b"), (2, "c")] (2 ^ 5)
        = some (List.range [(0, "a"), (1, "b"), (2, "c")].length, b') ∧
      (∀ i, i < [(0, "a"), (1, "b"), (2, "c")].length → b'.hashes.getD i 0 ≠ 0) ∧
      (∀ i, [(0, "a"), (1, "b"), (2, "c")].length ≤ i → i < 2 ^ 5 →
        b'.hashes.getD i 0 = 0) :=
  all_to_slot_zero_packed_displacements 5 exB32 [(0, "a"), (1, "b"), (2, "c")]
    (by decide) (by decide) (by decide) (by decide) (by decide) (by decide)

/-- Claim C2, counterexample.  With the identity hash on a fresh
capacity-32 table, inserting keys 5, 5, 7 and then 5 makes the fourth call
return 1, although its original candidate (5, "d") was displaced twice and
settled in slot 7 — two probe steps from its ideal slot 5 (displacement
`(7 - 5) & 31 = 2`).  The returned value is the displacement of the entry
(7, "c") that the swap chain pushed into the empty slot, not of the
original candidate. -/
theorem insert_dist_claim_counterexample :
    (exRun.map fun r => r.1) = some [0, 1, 0, 1] ∧
    (exRun.map fun r => r.2.entries.getD 7 default) = some ⟨5, "d"⟩ ∧
    (exRun.map fun r => r.2.hashes.getD 7 0) = some 5 ∧
    wrappingSub 7 (hashOf exHasher 5) &&& 31 = 2 ∧
    (1 : Nat) ≠ 2 := by
  refine ⟨?_, ?_, ?_, ?_, ?_⟩ <;> decide

/-- Claim C2, amended: on a table with at least one empty slot, the value
returned by Builder.insert is the probe distance of the entry finally
placed into the previously empty slot — the last candidate of the
displacement chain, which coincides with the original (key, value) pair
only when no swap occurred.  Formally: the filled slot p was empty before
the call, is occupied after it, and the returned value equals
`(p - hashes'[p]) & mask`, the stored displacement of its new occupant. -/
theorem insert_returns_final_candidate_displacement {K : Type} [Inhabited K]
    (b : Builder K) (key : K) (value : String) (k : Nat)
    (hH : b.hashes.length = 2 ^ k) (hE : b.entries.length = 2 ^ k)
    (hdvd : (2 ^ k : Nat) ∣ USIZE)
    (hfree : ∃ i, i < 2 ^ k ∧ b.hashes.getD i 0 = 0) :
    ∃ d b', b.insert key value (2 ^ k) = some (d, b') ∧
      ∃ p, p < 2 ^ k ∧ b.hashes.getD p 0 = 0 ∧ b'.hashes.getD p 0 ≠ 0 ∧
        d = wrappingSub p (b'.hashes.getD p 0) &&& (2 ^ k - 1) := by
  have hcap : 0 < 2 ^ k := Nat.two_pow_pos k
  have hhash : b.hash key ≠ 0 := hashOf_ne_zero b.hasher key
  have hp0 : b.hash key &&& (2 ^ k - 1) < 2 ^ k := and_mask_lt k _
  obtain ⟨i, hi, hiz⟩ := hfree
  have hempty : b.hashes.getD
      (((b.hash key &&& (2 ^ k - 1)) +
          (i + 2 ^ k - (b.hash key &&& (2 ^ k - 1))) % 2 ^ k) % 2 ^ k) 0 = 0 := by
    rw [offset_to_index (2 ^ k) _ i hp0 hi]
    exact hiz
  obtain ⟨r, hr, hdle⟩ := insertLoop_progress k
    ((i + 2 ^ k - (b.hash key &&& (2 ^ k - 1))) % 2 ^ k) (2 ^ k)
    b.hashes b.entries (b.hash key) ⟨key, value⟩ (b.hash key &&& (2 ^ k - 1)) 0
    hH hE hp0 hhash hempty (Nat.mod_lt _ hcap)
  obtain ⟨d, H', E'⟩ := r
  have hdlt : d < 2 ^ k := by
    have hjlt : (i + 2 ^ k - (b.hash key &&& (2 ^ k - 1))) % 2 ^ k < 2 ^ k :=
      Nat.mod_lt _ hcap
    simpa using lt_of_le_of_lt hdle (by simpa using hjlt)
  have hdist0 : (((0 : Nat)) : Int)
      ≡ ((b.hash key &&& (2 ^ k - 1) : Nat) : Int) - ((b.hash key : Nat) : Int)
        [ZMOD ((2 ^ k : Nat) : Int)] := by
    rw [and_mask_eq_mod]
    have h1 : ((b.hash key % 2 ^ k : Nat) : Int)
        = ((b.hash key : Nat) : Int) % ((2 ^ k : Nat) : Int) := by
      push_cast; ring
    rw [h1]
    have h2 : ((b.hash key : Nat) : Int) % ((2 ^ k : Nat) : Int)
        ≡ ((b.hash key : Nat) : Int) [ZMOD ((2 ^ k : Nat) : Int)] :=
      Int.emod_emod_of_dvd _ dvd_rfl
    have h4 := h2.sub_right ((b.hash key : Nat) : Int)
    have h3 : ((b.hash key : Nat) : Int) - ((b.hash key : Nat) : Int) = 0 := by ring
    rw [h3] at h4
    simpa using h4.symm
  obtain ⟨p, hp1, hp2, hp3, hp4⟩ := insertLoop_settles k hdvd (2 ^ k)
    b.hashes b.entries (b.hash key) ⟨key, value⟩ (b.hash key &&& (2 ^ k - 1)) 0
    d H' E' hr hH hp0 hhash hdist0
  have hloop : insertLoop (b.entries.length - 1) (2 ^ k) b.hashes b.entries
      (b.hash key) ⟨key, value⟩ (b.hash key &&& (b.entries.length - 1)) 0
      = some (d, H', E') := by
    rw [hE]; exact hr
  refine ⟨d, { b with hashes := H', entries := E' },
    Builder.insert_eq_of_loop b key value (2 ^ k) d H' E' hloop,
    p, hp1, hp2, hp3, ?_⟩
  have ht1 : wrappingSub p (H'.getD p 0) &&& (2 ^ k - 1) < 2 ^ k :=
    and_mask_lt k _
  have ht2 := wrappingSub_and_mask_modEq k p (H'.getD p 0) hdvd
  exact natCast_modEq_of_lt hdlt ht1 (hp4.trans ht2.symm)

/-- Witness for the amended C2 on the concrete fresh table. -/
theorem insert_returns_final_candidate_displacement_witness :
    ∃ d b', exB.insert 5 "a" (2 ^ 5) = some (d, b') ∧
      ∃ p, p < 2 ^ 5 ∧ exB.hashes.getD p 0 = 0 ∧ b'.hashes.getD p 0 ≠ 0 ∧
        d = wrappingSub p (b'.hashes.getD p 0) &&& (2 ^ 5 - 1) :=
  insert_returns_final_candidate_displacement exB 5 "a" 5 (by decide) (by decide)
    (by decide) ⟨0, by decide, by decide⟩

end StaticMap
